import Mathlib

set_option maxRecDepth 8000

/-!
Verification of the two algorithmic components of this repository:
the sliding-window chunker of notenvektorierung.py (chunk_text) and the
search-query extractor of kiunimainzqwenvscode.py
(JGUKIChat.extract_search_keywords).  Both are embedded shallowly: the
chunker over the encoded token sequence (the tokenizer is an external
collaborator, so chunks are kept as token sub-sequences instead of decoded
strings), the extractor over character lists with Python string semantics.
-/

/- ===================== Sliding-window chunker ===================== -/

/-- Python slice tokens[s:e] for 0 ≤ s ≤ e, the only index shapes the
chunking loop produces for valid parameters. -/
def sliceTokens (tokens : List Nat) (s e : Int) : List Nat :=
  (tokens.drop s.toNat).take (e - s).toNat

/-- Fuel-indexed embedding of the while-loop of chunk_text
(notenvektorierung.py, lines 86-100).  Arithmetic is over Int, as in
Python.  Each loop iteration computes e = min (start + max_tokens)
total_tokens (Python: end), emits the chunk for the span from start to e,
breaks when e = total_tokens, and otherwise advances start by step =
max_tokens - overlap.  The chunk construction (Python: decoding the token
slice) is abstracted as emit, so the same loop yields both the chunks and
their underlying spans.  none means the fuel ran out before the loop
finished. -/
def chunkLoopFuel {α : Type} (emit : Int → Int → α) :
    Nat → Int → Int → Int → Int → Option (List α)
  | 0, _, _, _, _ => none
  | fuel + 1, total_tokens, max_tokens, step, start =>
    if start < total_tokens then
      let e := min (start + max_tokens) total_tokens
      if e = total_tokens then
        some [emit start e]
      else
        match chunkLoopFuel emit fuel total_tokens max_tokens step (start + step) with
        | none => none
        | some rest => some (emit start e :: rest)
    else
      some []

/-- Embedding of chunk_text (notenvektorierung.py, lines 70-102) acting on
the encoded token sequence; chunks are returned as token sub-sequences
(the source decodes each with the external tokenizer before returning).
Fuel tokens.length + 1 bounds the while loop; for any positive step the
loop provably finishes within that bound, so a none result means the
source loop makes no progress and never terminates. -/
def chunk_text (tokens : List Nat) (max_tokens overlap : Int) : Option (List (List Nat)) :=
  let total_tokens : Int := tokens.length
  if total_tokens ≤ max_tokens then
    some [tokens]
  else
    chunkLoopFuel (sliceTokens tokens) (tokens.length + 1)
      total_tokens max_tokens (max_tokens - overlap) 0

/-- The same computation as chunk_text, but recording for each chunk the
half-open token span from start to e instead of the token slice. -/
def chunkSpans (total : Nat) (max_tokens overlap : Int) : Option (List (Int × Int)) :=
  if (total : Int) ≤ max_tokens then
    some [(0, (total : Int))]
  else
    chunkLoopFuel (fun s e => ((s, e) : Int × Int)) (total + 1)
      (total : Int) max_tokens (max_tokens - overlap) 0

/-- Ceiling division on integers, for the chunk-count formula of the spec. -/
def ceilDiv (a b : Int) : Int := (a + b - 1) / b

theorem chunkLoopFuel_no_progress {α : Type} (emit : Int → Int → α)
    (N maxT step : Int) (hmt : 0 ≤ maxT) (hN : maxT < N) (hstep : step ≤ 0) :
    ∀ fuel start, start ≤ 0 → chunkLoopFuel emit fuel N maxT step start = none := by
  intro fuel
  induction fuel with
  | zero => intro start _; rfl
  | succ fuel ih =>
    intro start hs
    have h1 : start < N := by omega
    have h2 : min (start + maxT) N = start + maxT := min_eq_left (by omega)
    simp only [chunkLoopFuel, if_pos h1, h2, if_neg (by omega : ¬(start + maxT = N))]
    rw [ih (start + step) (by omega)]

theorem chunkLoopFuel_spec (N maxT step : Int) (hstep : 0 < step) (hsm : step ≤ maxT) :
    ∀ fuel start, start < N → (N - start).toNat < fuel →
    ∃ L, chunkLoopFuel (fun s e => ((s, e) : Int × Int)) fuel N maxT step start = some L ∧
      L ≠ [] ∧
      (L.headD (0, 0)).1 = start ∧
      (∀ p ∈ L, start ≤ p.1 ∧ p.1 < p.2 ∧ p.2 ≤ N ∧ p.2 - p.1 ≤ maxT) ∧
      (∀ i a b, L[i]? = some a → L[i + 1]? = some b →
        b.1 = a.1 + step ∧ a.2 = a.1 + maxT) ∧
      (∀ x : Int, (start ≤ x ∧ x < N) ↔ ∃ p ∈ L, p.1 ≤ x ∧ x < p.2) := by
  intro fuel
  induction fuel with
  | zero => intro start h1 h2; omega
  | succ fuel ih =>
    intro start h1 h2
    by_cases he : start + maxT ≥ N
    · -- e = N: last window, the loop emits one chunk and breaks
      have hmin : min (start + maxT) N = N := min_eq_right he
      refine ⟨[(start, N)], ?_, ?_, ?_, ?_, ?_, ?_⟩
      · simp only [chunkLoopFuel, if_pos h1, hmin]
        simp
      · simp
      · simp
      · intro p hp
        simp only [List.mem_singleton] at hp
        subst hp
        exact ⟨le_refl _, h1, le_refl _, by omega⟩
      · intro i a b ha hb
        rcases i with _ | j
        · simp at hb
        · simp at ha
      · intro x
        simp only [List.mem_singleton]
        constructor
        · intro hx; exact ⟨(start, N), rfl, hx.1, hx.2⟩
        · rintro ⟨p, rfl, hp1, hp2⟩; exact ⟨hp1, hp2⟩
    · -- e = start + maxT < N: emit one chunk and continue at start + step
      push_neg at he
      have hmin : min (start + maxT) N = start + maxT := min_eq_left (le_of_lt he)
      obtain ⟨L', hres', hne', hhead', hbnd', hpair', hcov'⟩ :=
        ih (start + step) (by omega) (by omega)
      refine ⟨(start, start + maxT) :: L', ?_, ?_, ?_, ?_, ?_, ?_⟩
      · simp only [chunkLoopFuel, if_pos h1, hmin, if_neg (by omega : ¬(start + maxT = N)),
          hres']
      · simp
      · simp
      · intro p hp
        rcases List.mem_cons.mp hp with hph | hpt
        · subst hph
          exact ⟨le_refl _, by omega, le_of_lt he, by omega⟩
        · obtain ⟨hb1, hb2, hb3, hb4⟩ := hbnd' p hpt
          exact ⟨by omega, hb2, hb3, hb4⟩
      · intro i a b ha hb
        rcases i with _ | j
        · simp only [List.getElem?_cons_zero, Option.some.injEq] at ha
          simp only [List.getElem?_cons_succ] at hb
          rcases L' with _ | ⟨y, t⟩
          · exact absurd rfl hne'
          · simp only [List.getElem?_cons_zero, Option.some.injEq] at hb
            simp only [List.headD_cons] at hhead'
            subst ha; subst hb
            exact ⟨hhead', rfl⟩
        · simp only [List.getElem?_cons_succ] at ha hb
          exact hpair' j a b ha hb
      · intro x
        constructor
        · rintro ⟨hx1, hx2⟩
          by_cases hxe : x < start + maxT
          · exact ⟨(start, start + maxT), List.mem_cons_self _ _, hx1, hxe⟩
          · obtain ⟨p, hpL, hp1, hp2⟩ := (hcov' x).mp ⟨by omega, hx2⟩
            exact ⟨p, List.mem_cons_of_mem _ hpL, hp1, hp2⟩
        · rintro ⟨p, hpL, hp1, hp2⟩
          rcases List.mem_cons.mp hpL with hph | hpt
          · subst hph
            exact ⟨hp1, by omega⟩
          · have := (hcov' x).mpr ⟨p, hpt, hp1, hp2⟩
            exact ⟨by omega, this.2⟩

theorem chunkLoopFuel_length (N maxT step : Int) (hstep : 0 < step) (hsm : step ≤ maxT) :
    ∀ fuel start, start < N → start + (maxT - step) < N → (N - start).toNat < fuel →
    ∃ L, chunkLoopFuel (fun s e => ((s, e) : Int × Int)) fuel N maxT step start = some L ∧
      (L.length : Int) = (N - start - (maxT - step) - 1) / step + 1 := by
  intro fuel
  induction fuel with
  | zero => intro start h1 hov h2; omega
  | succ fuel ih =>
    intro start h1 hov h2
    by_cases he : start + maxT ≥ N
    · have hmin : min (start + maxT) N = N := min_eq_right he
      refine ⟨[(start, N)], ?_, ?_⟩
      · simp only [chunkLoopFuel, if_pos h1, hmin]
        simp
      · have hz : (N - start - (maxT - step) - 1) / step = 0 :=
          Int.ediv_eq_zero_of_lt (by omega) (by omega)
        simp [hz]
    · push_neg at he
      have hmin : min (start + maxT) N = start + maxT := min_eq_left (le_of_lt he)
      obtain ⟨L', hres', hlen'⟩ := ih (start + step) (by omega) (by omega) (by omega)
      refine ⟨(start, start + maxT) :: L', ?_, ?_⟩
      · simp only [chunkLoopFuel, if_pos h1, hmin, if_neg (by omega : ¬(start + maxT = N)),
          hres']
      · have hshift : (N - start - (maxT - step) - 1) / step
            = (N - (start + step) - (maxT - step) - 1) / step + 1 := by
          have harr : N - start - (maxT - step) - 1
              = (N - (start + step) - (maxT - step) - 1) + 1 * step := by ring
          rw [harr, Int.add_mul_ediv_right _ _ (by omega : step ≠ 0)]
        simp only [List.length_cons]
        push_cast
        omega

theorem chunkLoopFuel_emit {α : Type} (emit : Int → Int → α) :
    ∀ (fuel : Nat) (N maxT step start : Int),
      chunkLoopFuel emit fuel N maxT step start =
        (chunkLoopFuel (fun s e => ((s, e) : Int × Int)) fuel N maxT step start).map
          (List.map (fun p => emit p.1 p.2)) := by
  intro fuel
  induction fuel with
  | zero => intro N maxT step start; rfl
  | succ fuel ih =>
    intro N maxT step start
    simp only [chunkLoopFuel]
    by_cases h1 : start < N
    · simp only [if_pos h1]
      by_cases he : min (start + maxT) N = N
      · simp [he]
      · simp only [if_neg he]
        rw [ih]
        rcases chunkLoopFuel (fun s e => ((s, e) : Int × Int)) fuel N maxT step (start + step)
          with _ | L <;> simp
    · simp [if_neg h1]

/-- C1: the spec claims chunk_text with overlap ≥ max_tokens (or
max_tokens ≤ 0) fails with an InvalidParameter error synchronously,
producing zero chunks and never degrading into a zero-progress loop.  The
source performs no parameter validation at all: on a 300-token input with
max_tokens = 256 and overlap = 256 the step is 0, the loop condition and
the break condition are never resolved, and no amount of fuel lets the
loop finish — the call produces no result instead of raising. -/
theorem chunk_text_overlap_ge_max_loops :
    (∀ fuel, chunkLoopFuel (sliceTokens (List.replicate 300 0)) fuel 300 256 0 0 = none) ∧
    chunk_text (List.replicate 300 0) 256 256 = none := by
  constructor
  · intro fuel
    exact chunkLoopFuel_no_progress _ 300 256 0 (by omega) (by omega) (by omega)
      fuel 0 (by omega)
  · have h := chunkLoopFuel_no_progress (sliceTokens (List.replicate 300 0))
      300 256 (256 - 256) (by omega) (by omega) (by omega) 301 0 (by omega)
    simp only [chunk_text, List.length_replicate]
    norm_num
    exact h

/- ===================== Query extractor ===================== -/

/-- Python str.lower on one character, restricted to the character ranges
the sources use: ASCII letters and the Latin-1 letters À-Þ (excluding ×),
which cover the German umlauts.  Other characters are left unchanged. -/
def pyToLower (c : Char) : Char :=
  if ('A' ≤ c ∧ c ≤ 'Z') ∨ (0xC0 ≤ c.toNat ∧ c.toNat ≤ 0xDE ∧ c.toNat ≠ 0xD7) then
    Char.ofNat (c.toNat + 0x20)
  else c

/-- Python str.isupper on one character (word[0].isupper() in the source),
restricted to the same ranges as pyToLower. -/
def pyIsUpper (c : Char) : Bool :=
  decide (('A' ≤ c ∧ c ≤ 'Z') ∨ (0xC0 ≤ c.toNat ∧ c.toNat ≤ 0xDE ∧ c.toNat ≠ 0xD7))

/-- Python whitespace test used by str.split() and str.strip(), restricted
to the ASCII whitespace characters. -/
def pyIsSpace (c : Char) : Bool :=
  c == ' ' || c == '\t' || c == '\n' || c == '\x0b' || c == '\x0c' || c == '\r'

/-- Python str.startswith for character lists: does the second list start
with the first? -/
def startsWithL : List Char → List Char → Bool
  | [], _ => true
  | _ :: _, [] => false
  | a :: as, b :: bs => a == b && startsWithL as bs

/-- Python substring containment (the operator: needle in hay). -/
def containsSub (hay needle : List Char) : Bool :=
  startsWithL needle hay ||
    match hay with
    | [] => false
    | _ :: t => containsSub t needle

/-- Python str.replace where the replaced pattern is a single character
(the only shapes the source uses: comma, question mark, exclamation mark,
full stop). -/
def replaceChar : List Char → Char → List Char → List Char
  | [], _, _ => []
  | c :: t, old, neu =>
    (if c == old then neu else [c]) ++ replaceChar t old neu

/-- Worker for splitWs, accumulating the current word in reverse. -/
def splitWsAux : List Char → List Char → List (List Char)
  | [], acc => if acc.isEmpty then [] else [acc.reverse]
  | c :: t, acc =>
    if pyIsSpace c then
      if acc.isEmpty then splitWsAux t [] else acc.reverse :: splitWsAux t []
    else
      splitWsAux t (c :: acc)

/-- Python str.split() with no argument: split on whitespace runs,
producing no empty words. -/
def splitWs (s : List Char) : List (List Char) := splitWsAux s []

/-- Python str.strip(): drop leading and trailing whitespace. -/
def stripWs (s : List Char) : List Char :=
  ((s.dropWhile (fun c => pyIsSpace c)).reverse.dropWhile (fun c => pyIsSpace c)).reverse

/-- Python list(dict.fromkeys(xs)): remove duplicates keeping the first
occurrence of each element, in order. -/
def dedupKeepOrder (seen : List (List Char)) : List (List Char) → List (List Char)
  | [] => []
  | x :: t =>
    if seen.contains x then dedupKeepOrder seen t
    else x :: dedupKeepOrder (x :: seen) t

/-- The stopword set of extract_search_keywords
(kiunimainzqwenvscode.py, lines 359-372).  The source stores these in a
Python set; only membership is ever queried, so a list with the same
elements is an equivalent embedding. -/
def stopwords : List (List Char) :=
  ["wie", "was", "wer", "wo", "wann", "warum", "welche", "welcher", "welches",
   "ist", "sind", "war", "waren", "wird", "werden", "kann", "können",
   "der", "die", "das", "den", "dem", "des", "ein", "eine", "einer", "einem",
   "und", "oder", "aber", "denn", "weil", "dass", "ob", "wenn", "als",
   "zu", "zum", "zur", "von", "vom", "bei", "mit", "für", "über", "unter",
   "ich", "du", "er", "sie", "es", "wir", "ihr", "mich", "mir", "dich", "dir",
   "nicht", "kein", "keine", "keiner", "auch", "noch", "schon", "sehr",
   "bitte", "kannst", "könntest", "würdest", "sag", "sage", "erzähl", "erkläre",
   "gib", "zeig", "zeige", "finde", "such", "suche", "vergleiche", "vergleich",
   "the", "is", "are", "was", "were", "what", "who", "where", "when", "why", "how",
   "can", "could", "would", "please", "tell", "me", "about", "find", "compare",
   "in", "im", "an", "am", "auf"].map String.toList

/-- Weather trigger words (kiunimainzqwenvscode.py, line 379). -/
def weatherTriggers : List (List Char) :=
  ["wetter", "temperatur", "regen", "weather", "klima"].map String.toList

/-- News trigger words (kiunimainzqwenvscode.py, line 382). -/
def newsTriggers : List (List Char) :=
  ["news", "nachrichten", "aktuell", "neuigkeiten"].map String.toList

/-- Price trigger words (kiunimainzqwenvscode.py, line 385). -/
def priceTriggers : List (List Char) :=
  ["preis", "kosten", "price", "cost"].map String.toList

/-- Topic detection of extract_search_keywords (kiunimainzqwenvscode.py,
lines 374-387): test the lower-cased question against the three trigger
sets by substring containment, first match wins; the result is the query
prefix string (Python: topic_prefix) and the topic word-exclusion set
(Python: topic_words), or an empty prefix and empty set if nothing
matches. -/
def detectTopic (question_lower : List Char) : List Char × List (List Char) :=
  if weatherTriggers.any (fun w => containsSub question_lower w) then
    ("Wetter heute".toList,
     (["wetter", "temperatur", "regen", "weather", "klima",
       "wie", "ist", "das"].map String.toList))
  else if newsTriggers.any (fun w => containsSub question_lower w) then
    ("News aktuell".toList, newsTriggers)
  else if priceTriggers.any (fun w => containsSub question_lower w) then
    ("Preis aktuell".toList, priceTriggers)
  else
    ([], [])

/-- Location-phrase accumulator loop of extract_search_keywords
(kiunimainzqwenvscode.py, lines 394-410): a comma token flushes the
current phrase; a word whose first character is upper case and whose
lower-cased form is in neither the stopword set nor the topic word set
extends the current phrase; any other word flushes it.  The trailing
phrase is flushed at the end. -/
def collectLocations (topic_words : List (List Char)) :
    List (List Char) → List (List Char) → List (List Char)
  | [], current =>
    if current.isEmpty then [] else [List.intercalate [' '] current]
  | w :: rest, current =>
    if w == [','] then
      if current.isEmpty then collectLocations topic_words rest []
      else List.intercalate [' '] current :: collectLocations topic_words rest []
    else if pyIsUpper (w.headD ' ') && !stopwords.contains (w.map pyToLower) &&
        !topic_words.contains (w.map pyToLower) then
      collectLocations topic_words rest (current ++ [w])
    else
      if current.isEmpty then collectLocations topic_words rest []
      else List.intercalate [' '] current :: collectLocations topic_words rest []

/-- Topic of a question: detectTopic applied to the lower-cased question
(kiunimainzqwenvscode.py, line 375). -/
def topicOf (question : List Char) : List Char × List (List Char) :=
  detectTopic (question.map pyToLower)

/-- The topic query prefix recognized for a question (Python:
topic_prefix; empty when no topic matches). -/
def topicPrefixOf (question : List Char) : List Char := (topicOf question).1

/-- Cleaning step of extract_search_keywords (kiunimainzqwenvscode.py,
line 390): pad commas with spaces, delete question marks, exclamation
marks and full stops. -/
def cleanQuestion (question : List Char) : List Char :=
  replaceChar (replaceChar (replaceChar
    (replaceChar question ',' (" , ".toList)) '?' []) '!' []) '.' []

/-- Word list of the cleaned question (Python: original_words, line 391). -/
def originalWords (question : List Char) : List (List Char) :=
  splitWs (cleanQuestion question)

/-- The deduplicated, non-blank location phrases detected in a question
(kiunimainzqwenvscode.py, lines 394-413). -/
def locationsOf (question : List Char) : List (List Char) :=
  dedupKeepOrder []
    ((collectLocations (topicOf question).2 (originalWords question) []).filter
      (fun l => !(stripWs l).isEmpty))

/-- The fallback keyword list (kiunimainzqwenvscode.py, line 427): words
that are not stopwords, have more than one character, and are not the
comma token. -/
def keywordsOf (question : List Char) : List (List Char) :=
  (originalWords question).filter
    (fun w => !stopwords.contains (w.map pyToLower) && decide (1 < w.length) &&
      w != [','])

/-- Embedding of JGUKIChat.extract_search_keywords
(kiunimainzqwenvscode.py, lines 356-431).  Branches, in source order: at
least two locations and a topic give one query per location from the
topic prefix; exactly one location and a topic give a single query, with
a specialized template when the prefix contains the word Wetter; a
non-empty keyword list gives the keywords joined by spaces; otherwise the
question itself, with question marks removed and surrounding whitespace
stripped, is the single query. -/
def extract_search_keywords (question : List Char) : List (List Char) :=
  if 2 ≤ (locationsOf question).length ∧ topicPrefixOf question ≠ [] then
    (locationsOf question).map (fun loc => topicPrefixOf question ++ ' ' :: loc)
  else if (locationsOf question).length = 1 ∧ topicPrefixOf question ≠ [] then
    if containsSub (topicPrefixOf question) ("Wetter".toList) then
      ["Wetter ".toList ++ (locationsOf question).headD [] ++ " aktuell heute".toList]
    else
      [topicPrefixOf question ++ ' ' :: (locationsOf question).headD []]
  else if keywordsOf question ≠ [] then
    [List.intercalate [' '] (keywordsOf question)]
  else
    [stripWs (replaceChar question '?' [])]

/- ===================== Chunker claims ===================== -/

/-- C2: for max_tokens > 0 and 0 ≤ overlap < max_tokens, the token spans
underlying the chunks returned by chunk_text, taken in order, cover
exactly the range from 0 to the token count N, with no gaps: an integer x
lies in some returned span exactly when 0 ≤ x < N. -/
theorem chunk_text_coverage (tokens : List Nat) (max_tokens overlap : Int)
    (h1 : 0 < max_tokens) (h2 : 0 ≤ overlap) (h3 : overlap < max_tokens) :
    ∃ L, chunkSpans tokens.length max_tokens overlap = some L ∧
      chunk_text tokens max_tokens overlap
        = some (L.map (fun p => sliceTokens tokens p.1 p.2)) ∧
      ∀ x : Int, (0 ≤ x ∧ x < (tokens.length : Int)) ↔ ∃ p ∈ L, p.1 ≤ x ∧ x < p.2 := by
  by_cases hN : (tokens.length : Int) ≤ max_tokens
  · refine ⟨[(0, (tokens.length : Int))], ?_, ?_, ?_⟩
    · simp only [chunkSpans, if_pos hN]
    · simp only [chunk_text, if_pos hN, List.map_cons, List.map_nil]
      simp [sliceTokens]
    · intro x
      simp only [List.mem_singleton]
      constructor
      · intro hx; exact ⟨(0, (tokens.length : Int)), rfl, hx.1, hx.2⟩
      · rintro ⟨p, rfl, hp1, hp2⟩; exact ⟨hp1, hp2⟩
  · push_neg at hN
    obtain ⟨L, hres, hne, hhead, hbnd, hpair, hcov⟩ :=
      chunkLoopFuel_spec (tokens.length) max_tokens (max_tokens - overlap)
        (by omega) (by omega) (tokens.length + 1) 0 (by omega) (by omega)
    refine ⟨L, ?_, ?_, ?_⟩
    · simp only [chunkSpans, if_neg (not_le.mpr hN)]
      exact hres
    · simp only [chunk_text, if_neg (not_le.mpr hN)]
      rw [chunkLoopFuel_emit, hres]
      rfl
    · intro x
      simpa using hcov x

theorem chunk_text_coverage_witness :
    (0 : Int) < 2 ∧ (0 : Int) ≤ 1 ∧ (1 : Int) < 2 ∧
    (∃ L, chunkSpans ([1, 2, 3] : List Nat).length 2 1 = some L ∧
      chunk_text [1, 2, 3] 2 1 = some (L.map (fun p => sliceTokens [1, 2, 3] p.1 p.2)) ∧
      ∀ x : Int, (0 ≤ x ∧ x < ((([1, 2, 3] : List Nat).length : Nat) : Int)) ↔
        ∃ p ∈ L, p.1 ≤ x ∧ x < p.2) :=
  ⟨by decide, by decide, by decide,
   chunk_text_coverage [1, 2, 3] 2 1 (by decide) (by decide) (by decide)⟩

/-- C3: for a text of N tokens with N > max_tokens, 0 < max_tokens and
0 ≤ overlap < max_tokens, chunk_text returns exactly
ceil((N - overlap) / step) chunks, step = max_tokens - overlap; and a
300-token text with max_tokens 256 and overlap 64 yields exactly the two
spans from 0 to 256 and from 192 to 300. -/
theorem chunk_text_count (total : Nat) (max_tokens overlap : Int)
    (h1 : 0 < max_tokens) (h2 : 0 ≤ overlap) (h3 : overlap < max_tokens)
    (h4 : max_tokens < (total : Int)) :
    (∃ L, chunkSpans total max_tokens overlap = some L ∧
      (L.length : Int) = ceilDiv ((total : Int) - overlap) (max_tokens - overlap)) ∧
    chunkSpans 300 256 64 = some [(0, 256), (192, 300)] := by
  constructor
  · obtain ⟨L, hres, hlen⟩ :=
      chunkLoopFuel_length (total) max_tokens (max_tokens - overlap)
        (by omega) (by omega) (total + 1) 0 (by omega) (by omega) (by omega)
    refine ⟨L, ?_, ?_⟩
    · simp only [chunkSpans, if_neg (not_le.mpr h4)]
      exact hres
    · rw [hlen]
      have hceil : ceilDiv ((total : Int) - overlap) (max_tokens - overlap)
          = ((total : Int) - overlap - 1) / (max_tokens - overlap) + 1 := by
        unfold ceilDiv
        have harr : (total : Int) - overlap + (max_tokens - overlap) - 1
            = ((total : Int) - overlap - 1) + 1 * (max_tokens - overlap) := by ring
        rw [harr, Int.add_mul_ediv_right _ _ (by omega : max_tokens - overlap ≠ 0)]
      rw [hceil]
      have harg : (total : Int) - 0 - (max_tokens - (max_tokens - overlap)) - 1
          = (total : Int) - overlap - 1 := by ring
      rw [harg]
  · decide

theorem chunk_text_count_witness :
    (0 : Int) < 2 ∧ (0 : Int) ≤ 1 ∧ (1 : Int) < 2 ∧ (2 : Int) < ((5 : Nat) : Int) ∧
    ((∃ L, chunkSpans 5 2 1 = some L ∧
      (L.length : Int) = ceilDiv (((5 : Nat) : Int) - 1) (2 - 1)) ∧
    chunkSpans 300 256 64 = some [(0, 256), (192, 300)]) :=
  ⟨by decide, by decide, by decide, by decide,
   chunk_text_count 5 2 1 (by decide) (by decide) (by decide) (by decide)⟩

/-- C4: for valid parameters, every pair of consecutive chunks except
possibly the last pair overlaps by exactly overlap tokens: if span a is
followed by span b and the pair is not the last one, the end of a exceeds
the start of b by exactly overlap. -/
theorem chunk_text_overlap_eq (total : Nat) (max_tokens overlap : Int)
    (h1 : 0 < max_tokens) (h2 : 0 ≤ overlap) (h3 : overlap < max_tokens) :
    ∀ L, chunkSpans total max_tokens overlap = some L →
      ∀ (i : Nat) (a b : Int × Int), i + 2 < L.length →
        L[i]? = some a → L[i + 1]? = some b → a.2 - b.1 = overlap := by
  intro L hL i a b hi ha hb
  by_cases hN : (total : Int) ≤ max_tokens
  · rw [chunkSpans, if_pos hN] at hL
    have hL' : L = [(0, (total : Int))] := (Option.some.injEq _ _ ▸ hL).symm
    subst hL'
    simp at hi
  · push_neg at hN
    obtain ⟨L', hres, hne, hhead, hbnd, hpair, hcov⟩ :=
      chunkLoopFuel_spec (total) max_tokens (max_tokens - overlap)
        (by omega) (by omega) (total + 1) 0 (by omega) (by omega)
    rw [chunkSpans, if_neg (not_le.mpr hN), hres] at hL
    have hL' : L' = L := Option.some.injEq _ _ ▸ hL
    subst hL'
    obtain ⟨hb1, ha2⟩ := hpair i a b ha hb
    omega

theorem chunk_text_overlap_eq_witness :
    (0 : Int) < 2 ∧ (0 : Int) ≤ 1 ∧ (1 : Int) < 2 ∧
    chunkSpans 5 2 1 = some [(0, 2), (1, 3), (2, 4), (3, 5)] ∧
    0 + 2 < ([((0 : Int), (2 : Int)), (1, 3), (2, 4), (3, 5)]).length ∧
    (((0 : Int), (2 : Int)).2 - ((1 : Int), (3 : Int)).1 = 1) :=
  ⟨by decide, by decide, by decide, by decide, by decide,
   chunk_text_overlap_eq 5 2 1 (by decide) (by decide) (by decide)
     [(0, 2), (1, 3), (2, 4), (3, 5)] (by decide) 0 (0, 2) (1, 3)
     (by decide) (by decide) (by decide)⟩

/-- C5: for valid parameters, every chunk returned by chunk_text holds at
most max_tokens tokens. -/
theorem chunk_text_bound (tokens : List Nat) (max_tokens overlap : Int)
    (h1 : 0 < max_tokens) (h2 : 0 ≤ overlap) (h3 : overlap < max_tokens) :
    ∀ C, chunk_text tokens max_tokens overlap = some C →
      ∀ c ∈ C, (c.length : Int) ≤ max_tokens := by
  intro C hC c hc
  by_cases hN : (tokens.length : Int) ≤ max_tokens
  · rw [chunk_text] at hC
    simp only [if_pos hN] at hC
    have hC' : C = [tokens] := (Option.some.injEq _ _ ▸ hC).symm
    subst hC'
    simp only [List.mem_singleton] at hc
    subst hc
    exact hN
  · push_neg at hN
    obtain ⟨L, hres, hne, hhead, hbnd, hpair, hcov⟩ :=
      chunkLoopFuel_spec (tokens.length) max_tokens (max_tokens - overlap)
        (by omega) (by omega) (tokens.length + 1) 0 (by omega) (by omega)
    rw [chunk_text] at hC
    simp only [if_neg (not_le.mpr hN)] at hC
    rw [chunkLoopFuel_emit, hres] at hC
    have hC' : C = L.map (fun p => sliceTokens tokens p.1 p.2) :=
      (Option.some.injEq _ _ ▸ hC).symm
    subst hC'
    obtain ⟨p, hpL, hpc⟩ := List.mem_map.mp hc
    obtain ⟨hb1, hb2, hb3, hb4⟩ := hbnd p hpL
    have hlen : c.length ≤ (p.2 - p.1).toNat := by
      rw [← hpc]
      simp only [sliceTokens, List.length_take]
      omega
    omega

theorem chunk_text_bound_witness :
    (0 : Int) < 2 ∧ (0 : Int) ≤ 1 ∧ (1 : Int) < 2 ∧
    chunk_text [7, 8, 9] 2 1 = some [[7, 8], [8, 9]] ∧
    ([7, 8] ∈ ([[7, 8], [8, 9]] : List (List Nat))) ∧
    ((([7, 8] : List Nat).length : Int) ≤ 2) :=
  ⟨by decide, by decide, by decide, by decide, by decide,
   chunk_text_bound [7, 8, 9] 2 1 (by decide) (by decide) (by decide)
     [[7, 8], [8, 9]] (by decide) [7, 8] (by decide)⟩

/- ===================== Extractor claims ===================== -/

theorem intercalate_cons_ne_nil (sep w : List Char) (rest : List (List Char))
    (hw : w ≠ []) : List.intercalate sep (w :: rest) ≠ [] := by
  cases rest with
  | nil => simpa [List.intercalate, List.intersperse_singleton] using hw
  | cons r t =>
    simp only [List.intercalate, List.intersperse_cons_cons, List.flatten_cons]
    intro hc
    exact hw (List.append_eq_nil.mp hc).1

/-- C6: extract_search_keywords is total (the embedding is a total
function, and every partial operation of the source — word[0], indexing
locations[0] — is guarded) and returns at least one element for every
string input, including the empty string. -/
theorem extract_search_keywords_nonempty (question : List Char) :
    1 ≤ (extract_search_keywords question).length := by
  unfold extract_search_keywords
  split
  · rename_i h
    rw [List.length_map]
    omega
  · split
    · split <;> simp
    · split <;> simp

/-- C7 counterexample: on the empty question every branch up to the final
fallback is skipped, and the fallback returns the stripped question with
question marks removed, which is the empty string — so the returned list
contains an empty element, contradicting the claim that every element is
a non-empty string. -/
theorem extract_search_keywords_empty_fallback :
    extract_search_keywords [] = [[]] := by decide

/-- C7 amended: every element of the returned list is non-empty, provided
the question is non-empty after removing question marks and stripping
surrounding whitespace; otherwise the single fallback element is the
empty string. -/
theorem extract_search_keywords_elems_nonempty (question : List Char)
    (h : stripWs (replaceChar question '?' []) ≠ []) :
    (extract_search_keywords question).all (fun x => !x.isEmpty) = true := by
  unfold extract_search_keywords
  split
  · rw [List.all_eq_true]
    intro x hx
    obtain ⟨loc, hloc, rfl⟩ := List.mem_map.mp hx
    simp
  · split
    · split
      · rw [List.all_eq_true]
        intro x hx
        simp only [List.mem_singleton] at hx
        subst hx
        simp
      · rw [List.all_eq_true]
        intro x hx
        simp only [List.mem_singleton] at hx
        subst hx
        simp
    · split
      · rename_i hk
        rw [List.all_eq_true]
        intro x hx
        simp only [List.mem_singleton] at hx
        subst hx
        rcases hkw : keywordsOf question with _ | ⟨w, rest⟩
        · exact absurd hkw hk
        · have hwmem : w ∈ keywordsOf question := by
            rw [hkw]; exact List.mem_cons_self _ _
          have hwpred := List.of_mem_filter hwmem
          have hwlen : 1 < w.length := by
            simp only [Bool.and_eq_true, decide_eq_true_eq] at hwpred
            exact hwpred.1.2
          have hwne : w ≠ [] := by
            intro hcontra; rw [hcontra] at hwlen; simp at hwlen
          simpa using intercalate_cons_ne_nil [' '] w rest hwne
      · rw [List.all_eq_true]
        intro x hx
        simp only [List.mem_singleton] at hx
        subst hx
        simpa using h

theorem extract_search_keywords_elems_nonempty_witness :
    stripWs (replaceChar ("Hallo".toList) '?' []) ≠ [] ∧
    (extract_search_keywords ("Hallo".toList)).all (fun x => !x.isEmpty) = true :=
  ⟨by decide, extract_search_keywords_elems_nonempty _ (by decide)⟩

/-- C8: when a topic is recognized and at least two distinct location
phrases are detected, extract_search_keywords returns one query per
distinct phrase, each the topic prefix followed by a space and the
phrase, in first-occurrence order with duplicates removed (locationsOf is
the deduplicated first-occurrence list); on the question about the
weather in Mainz, Berlin and Köln this yields exactly the three
weather-prefixed queries. -/
theorem extract_search_keywords_multi_location (question : List Char)
    (h2 : 2 ≤ (locationsOf question).length)
    (ht : topicPrefixOf question ≠ []) :
    extract_search_keywords question
      = (locationsOf question).map (fun loc => topicPrefixOf question ++ ' ' :: loc) ∧
    locationsOf ("Wetter in Mainz, Berlin und Köln".toList)
      = ["Mainz".toList, "Berlin".toList, "Köln".toList] ∧
    extract_search_keywords ("Wetter in Mainz, Berlin und Köln".toList)
      = ["Wetter heute Mainz".toList, "Wetter heute Berlin".toList,
         "Wetter heute Köln".toList] := by
  refine ⟨?_, by decide, by decide⟩
  unfold extract_search_keywords
  rw [if_pos ⟨h2, ht⟩]

theorem extract_search_keywords_multi_location_witness :
    2 ≤ (locationsOf ("Wetter in Mainz, Berlin und Köln".toList)).length ∧
    topicPrefixOf ("Wetter in Mainz, Berlin und Köln".toList) ≠ [] ∧
    extract_search_keywords ("Wetter in Mainz, Berlin und Köln".toList)
      = (locationsOf ("Wetter in Mainz, Berlin und Köln".toList)).map
          (fun loc => topicPrefixOf ("Wetter in Mainz, Berlin und Köln".toList)
            ++ ' ' :: loc) :=
  ⟨by decide, by decide,
   (extract_search_keywords_multi_location _ (by decide) (by decide)).1⟩

/-- C9: when a topic is recognized and exactly one location phrase is
detected, extract_search_keywords returns a single query; for the weather
topic it uses the specialized template Wetter-phrase-aktuell-heute, for
any other topic the plain topic prefix followed by the phrase; the single
weather question about Mainz yields exactly the specialized query. -/
theorem extract_search_keywords_single_location (question loc : List Char)
    (hl : locationsOf question = [loc]) (ht : topicPrefixOf question ≠ []) :
    (topicPrefixOf question = "Wetter heute".toList →
      extract_search_keywords question
        = ["Wetter ".toList ++ loc ++ " aktuell heute".toList]) ∧
    (containsSub (topicPrefixOf question) ("Wetter".toList) = false →
      extract_search_keywords question = [topicPrefixOf question ++ ' ' :: loc]) ∧
    extract_search_keywords ("Wie ist das Wetter in Mainz?".toList)
      = ["Wetter Mainz aktuell heute".toList] := by
  refine ⟨?_, ?_, by decide⟩
  · intro hw
    unfold extract_search_keywords
    rw [hl, hw]
    rw [if_neg (by norm_num), if_pos ⟨rfl, by decide⟩, if_pos (by decide)]
    simp
  · intro hcs
    unfold extract_search_keywords
    rw [hl]
    rw [if_neg (by norm_num), if_pos ⟨rfl, ht⟩, if_neg (by rw [hcs]; simp)]
    simp

theorem extract_search_keywords_single_location_witness :
    locationsOf ("Wie ist das Wetter in Mainz?".toList) = ["Mainz".toList] ∧
    topicPrefixOf ("Wie ist das Wetter in Mainz?".toList) ≠ [] ∧
    topicPrefixOf ("Wie ist das Wetter in Mainz?".toList) = "Wetter heute".toList ∧
    extract_search_keywords ("Wie ist das Wetter in Mainz?".toList)
      = ["Wetter ".toList ++ "Mainz".toList ++ " aktuell heute".toList] :=
  ⟨by decide, by decide, by decide,
   (extract_search_keywords_single_location _ _ (by decide) (by decide)).1 (by decide)⟩

/-- C10: topic detection matches trigger words by substring containment in
the lower-cased question, not by whole-word membership, in the priority
order weather, news, price; in particular a trigger embedded inside a
longer word (wetter inside Wetterbericht, preis inside Preiselbeeren)
recognizes the topic. -/
theorem extract_search_keywords_topic_substring (question : List Char) :
    (weatherTriggers.any (fun w => containsSub (question.map pyToLower) w) = true →
      topicPrefixOf question = "Wetter heute".toList) ∧
    (weatherTriggers.any (fun w => containsSub (question.map pyToLower) w) = false →
      newsTriggers.any (fun w => containsSub (question.map pyToLower) w) = true →
      topicPrefixOf question = "News aktuell".toList) ∧
    (weatherTriggers.any (fun w => containsSub (question.map pyToLower) w) = false →
      newsTriggers.any (fun w => containsSub (question.map pyToLower) w) = false →
      priceTriggers.any (fun w => containsSub (question.map pyToLower) w) = true →
      topicPrefixOf question = "Preis aktuell".toList) ∧
    topicPrefixOf ("Der Wetterbericht von heute".toList) = "Wetter heute".toList ∧
    topicPrefixOf ("Preiselbeeren kaufen".toList) = "Preis aktuell".toList := by
  refine ⟨?_, ?_, ?_, by decide, by decide⟩
  · intro h1
    simp [topicPrefixOf, topicOf, detectTopic, h1]
  · intro h1 h2
    simp [topicPrefixOf, topicOf, detectTopic, h1, h2]
  · intro h1 h2 h3
    simp [topicPrefixOf, topicOf, detectTopic, h1, h2, h3]

theorem extract_search_keywords_topic_substring_witness :
    weatherTriggers.any
      (fun w => containsSub (("Der Wetterbericht von heute".toList).map pyToLower) w)
      = true ∧
    topicPrefixOf ("Der Wetterbericht von heute".toList) = "Wetter heute".toList :=
  ⟨by decide, (extract_search_keywords_topic_substring _).1 (by decide)⟩
